import Mathlib

/-!
Shallow embedding of the HelenOS `libfs` glue code: the registration
handshake `fs_register` and the path-lookup engine `libfs_lookup`
(file `uspace/lib/ui/src/window.c`, lines 1233-1507 of the snapshot).

The engine is parameterised over the backend operation table
(`libfs_ops_t`, here `LibfsOps`), with an abstract node type `ν` and an
abstract backend state `σ`: every backend call that can mutate backend
state is modelled as an explicit state transformer `σ → ... × σ`.

The engine is instrumented: it threads a `Run` record carrying the
backend state, a fresh-serial counter, and an ordered event trace.
Every node reference the engine acquires (from `root_get`, `match`,
`create`, `node_get`) is paired with a fresh serial number, and every
`node_put` / `destroy` / `ipc_answer_*` is logged, so that the claims
about reply multiplicity, reference releasing and rollback are stated
as properties of the trace.

The source addresses the path buffer by an absolute offset `next`
bounded by `last` (after the wraparound adjustment `last += PLB_SIZE`).
The embedding carries, next to the absolute offset `next`, the value
`remaining = last + 1 - next`, so the source's range test `next <= last`
is `0 < remaining`; every advance `next++` of the source decrements
`remaining` by one.  This reparametrisation makes all recursion
structural (on `remaining`, plus a component-count fuel for the outer
loop that the top level instantiates with a provably sufficient value).
-/

namespace LibfsSpec

/-- Error codes used by the engine (`errno.h` constants).  Backend
operations may report further codes, covered by `other`. -/
inductive Errno where
  | EOK
  | ENOENT
  | ENAMETOOLONG
  | ENOTDIR
  | EISDIR
  | EEXIST
  | ENOSPC
  | ENOMEM
  | other (n : Nat)
deriving DecidableEq

/-- A wire reply: `ipc_answer_0` (bare status) or `ipc_answer_5`
(status plus the five triplet fields). -/
inductive Reply where
  | status (rc : Errno)
  | quintet (rc : Errno) (fsHandle devHandle idx sz lnk : Nat)
deriving DecidableEq

/-- Trace events recorded by the instrumented engine.  `acqNav` marks a
reference acquired into the `par`/`cur`/`tmp` navigation lineage
(`root_get` or `match`); `acqFn` marks a reference obtained for the
fresh/linked node `fn` (`create` or `node_get`); `put` is a `node_put`
of the reference with the given serial; `destroyN` is `ops->destroy`. -/
inductive Ev (ν : Type) where
  | acqNav (s : Nat) (n : ν)
  | acqFn (s : Nat) (n : ν)
  | put (s : Nat) (n : ν)
  | destroyN (s : Nat) (n : ν)
  | callMatch
  | callCreate
  | callNodeGet
  | callLink
  | callUnlink
  | reply (r : Reply)
  | assertFailed
  | fuelOut
deriving DecidableEq

/-- The lookup flag bitset `L_*`.  The source tests single bits of the
`lflag` word; since the seven flag bits are distinct, the bitset is
embedded as a record of booleans (`lflag & L_CREATE` becomes
`f.create`, `(lflag & (L_CREATE | L_EXCLUSIVE)) == (L_CREATE |
L_EXCLUSIVE)` becomes `f.create && f.exclusive`, and so on). -/
structure LFlags where
  create : Bool
  exclusive : Bool
  link : Bool
  parent : Bool
  unlink : Bool
  file : Bool
  directory : Bool
deriving DecidableEq

/-- The backend operation table `libfs_ops_t`.  `plb` is
`plb_get_char`; the shared path buffer is read-only, so it does not
take the backend state.  All other operations thread the backend state
explicitly.  `root_get` is total: the source dereferences its result
unconditionally. -/
structure LibfsOps (ν σ : Type) where
  plb : Nat → Char
  root_get : σ → Nat → ν × σ
  has_children : σ → ν → Bool
  is_directory : σ → ν → Bool
  is_file : σ → ν → Bool
  matchNode : σ → ν → List Char → Option ν × σ
  create : σ → Nat → LFlags → Option ν × σ
  node_get : σ → Nat → Nat → Option ν × σ
  link : σ → ν → ν → List Char → Errno × σ
  unlink : σ → Option ν → ν → Errno × σ
  destroy : σ → ν → Errno × σ
  node_put : σ → ν → σ
  index_get : σ → ν → Nat
  size_get : σ → ν → Nat
  lnkcnt_get : σ → ν → Nat

/-- Running state of one instrumented lookup: backend state, fresh
serial counter, event trace (in execution order). -/
structure Run (ν σ : Type) where
  st : σ
  ctr : Nat
  tr : List (Ev ν)
deriving DecidableEq

/-- Append one event. -/
def emit (e : Ev ν) (m : Run ν σ) : Run ν σ :=
  { m with tr := m.tr ++ [e] }

/-- `ipc_answer_0(rid, rc)`. -/
def answer0 (rc : Errno) (m : Run ν σ) : Run ν σ :=
  emit (Ev.reply (Reply.status rc)) m

/-- `ipc_answer_5(rid, rc, a, b, c, d, e)`. -/
def answer5 (rc : Errno) (a b c d e : Nat) (m : Run ν σ) : Run ν σ :=
  emit (Ev.reply (Reply.quintet rc a b c d e)) m

/-- `if (x) ops->node_put(x)`: releasing an absent reference is a
no-op. -/
def putRef (ops : LibfsOps ν σ) (r : Option (ν × Nat)) (m : Run ν σ) : Run ν σ :=
  match r with
  | none => m
  | some p => { m with st := ops.node_put m.st p.1, tr := m.tr ++ [Ev.put p.2 p.1] }

/-- The `out:` label: release `par`, then `cur`, then `tmp`. -/
def cleanupRefs (ops : LibfsOps ν σ) (par cur tmp : Option (ν × Nat)) (m : Run ν σ) :
    Run ν σ :=
  putRef ops tmp (putRef ops cur (putRef ops par m))

/-- Result of the in-loop component-collection loop (window.c
lines 1331-1340). -/
inductive CollectRes where
  | tooLong
  | ok (name : List Char) (stop rem : Nat)
deriving DecidableEq

/-- The in-loop collection: read characters from `next` up to the next
separator or end of range; if the accumulated length would reach
`NAME_MAX` first, report overflow.  `remaining` stands for
`last + 1 - next`; on success it returns the component, the offset of
the terminator and the remaining count at the terminator. -/
def collectComp (g : Nat → Char) (nameMax : Nat) :
    Nat → Nat → List Char → CollectRes
  | 0, next, acc => CollectRes.ok acc next 0
  | r + 1, next, acc =>
    if g next = '/' then CollectRes.ok acc next (r + 1)
    else if acc.length + 1 = nameMax then CollectRes.tooLong
    else collectComp g nameMax r (next + 1) (acc ++ [g next])

/-- Result of the post-loop collection (window.c lines 1418-1432). -/
inductive CollectLastRes where
  | moreComponents
  | tooLong
  | ok (name : List Char)
deriving DecidableEq

/-- The post-loop collection of the final component: a separator means
there is more than one remaining component (an error there). -/
def collectLast (g : Nat → Char) (nameMax : Nat) :
    Nat → Nat → List Char → CollectLastRes
  | 0, _, acc => CollectLastRes.ok acc
  | r + 1, next, acc =>
    if g next = '/' then CollectLastRes.moreComponents
    else if acc.length + 1 = nameMax then CollectLastRes.tooLong
    else collectLast g nameMax r (next + 1) (acc ++ [g next])

/-- The create-or-resolve-then-link block (window.c lines 1363-1389 and
its verbatim copy at lines 1436-1459): obtain `fn` by `create`
(`L_CREATE`) or `node_get` (`L_LINK`), link it under `cur`; on link
failure destroy `fn` if it was freshly created; on success reply with
`fn`'s triplet and release it; if `fn` was not obtained reply
`ENOSPC`.  Ends at `goto out`. -/
def linkChild (ops : LibfsOps ν σ) (fsh dev : Nat) (f : LFlags) (index : Nat)
    (par : Option (ν × Nat)) (cur : ν × Nat) (name : List Char) (m : Run ν σ) :
    Run ν σ :=
  let got : Option ν × Run ν σ :=
    if f.create then
      let pr := ops.create m.st dev f
      (pr.1, { m with st := pr.2, tr := m.tr ++ [Ev.callCreate] })
    else
      let pr := ops.node_get m.st dev index
      (pr.1, { m with st := pr.2, tr := m.tr ++ [Ev.callNodeGet] })
  let m1 := got.2
  match got.1 with
  | some n =>
    let s := m1.ctr
    let m2 := { m1 with ctr := m1.ctr + 1, tr := m1.tr ++ [Ev.acqFn s n] }
    let pl := ops.link m2.st cur.1 n name
    let m3 := { m2 with st := pl.2, tr := m2.tr ++ [Ev.callLink] }
    if pl.1 ≠ Errno.EOK then
      let m4 :=
        if f.create then
          { m3 with st := (ops.destroy m3.st n).2, tr := m3.tr ++ [Ev.destroyN s n] }
        else m3
      cleanupRefs ops par (some cur) none (answer0 pl.1 m4)
    else
      cleanupRefs ops par (some cur) none
        (putRef ops (some (n, s))
          (answer5 Errno.EOK fsh dev (ops.index_get m3.st n) (ops.size_get m3.st n)
            (ops.lnkcnt_get m3.st n) m3))
  | none => cleanupRefs ops par (some cur) none (answer0 Errno.ENOSPC m1)

/-- The hit handling after the `L_PARENT` substitution (window.c lines
1476-1498): `L_UNLINK` captures the link count before unlinking and
replies with the unlink status and that pre-unlink count; then the
`EEXIST` / `EISDIR` / `ENOTDIR` checks; otherwise the success triplet. -/
def handleHitTail (ops : LibfsOps ν σ) (fsh dev : Nat) (f : LFlags)
    (par : Option (ν × Nat)) (cur : ν × Nat) (m : Run ν σ) : Run ν σ :=
  if f.unlink then
    let old := ops.lnkcnt_get m.st cur.1
    let pu := ops.unlink m.st (par.map Prod.fst) cur.1
    let m1 := { m with st := pu.2, tr := m.tr ++ [Ev.callUnlink] }
    cleanupRefs ops par (some cur) none
      (answer5 pu.1 fsh dev (ops.index_get m1.st cur.1) (ops.size_get m1.st cur.1) old m1)
  else if (f.create && f.exclusive) || f.link then
    cleanupRefs ops par (some cur) none (answer0 Errno.EEXIST m)
  else if f.file && ops.is_directory m.st cur.1 then
    cleanupRefs ops par (some cur) none (answer0 Errno.EISDIR m)
  else if f.directory && ops.is_file m.st cur.1 then
    cleanupRefs ops par (some cur) none (answer0 Errno.ENOTDIR m)
  else
    cleanupRefs ops par (some cur) none
      (answer5 Errno.EOK fsh dev (ops.index_get m.st cur.1) (ops.size_get m.st cur.1)
        (ops.lnkcnt_get m.st cur.1) m)

/-- The hit handling (window.c lines 1466-1498): `L_PARENT` releases
`cur` and replaces it with `par`; at the root (`par` absent) this is
`ENOENT`. -/
def handleHit (ops : LibfsOps ν σ) (fsh dev : Nat) (f : LFlags)
    (par : Option (ν × Nat)) (cur : ν × Nat) (m : Run ν σ) : Run ν σ :=
  if f.parent then
    let m1 := putRef ops (some cur) m
    match par with
    | none => cleanupRefs ops none none none (answer0 Errno.ENOENT m1)
    | some p => handleHitTail ops fsh dev f none p m1
  else handleHitTail ops fsh dev f par cur m

/-- The code after the walk loop (window.c lines 1409-1498): the
excessive-components case when characters remain but `cur` has no
children, else the hit handling. -/
def afterLoop (ops : LibfsOps ν σ) (nameMax fsh dev : Nat) (f : LFlags) (index : Nat)
    (next remaining : Nat) (par : Option (ν × Nat)) (cur : ν × Nat) (m : Run ν σ) :
    Run ν σ :=
  if 0 < remaining ∧ ¬ops.has_children m.st cur.1 = true then
    if f.create || f.link then
      if ¬ops.is_directory m.st cur.1 = true then
        cleanupRefs ops par (some cur) none (answer0 Errno.ENOTDIR m)
      else
        match collectLast ops.plb nameMax remaining next [] with
        | CollectLastRes.moreComponents =>
          cleanupRefs ops par (some cur) none (answer0 Errno.ENOENT m)
        | CollectLastRes.tooLong =>
          cleanupRefs ops par (some cur) none (answer0 Errno.ENAMETOOLONG m)
        | CollectLastRes.ok name =>
          if name = [] then emit Ev.assertFailed m
          else linkChild ops fsh dev f index par cur name m
    else cleanupRefs ops par (some cur) none (answer0 Errno.ENOENT m)
  else handleHit ops fsh dev f par cur m

/-- The walk loop (window.c lines 1329-1407).  `fuel` bounds the number
of iterations; the top level passes `remaining + 1`, which is
sufficient because each iteration consumes at least the trailing
separator.  `remaining` stands for `last + 1 - next`, so the source's
`next <= last` is `0 < remaining`. -/
def lookupLoop (ops : LibfsOps ν σ) (nameMax fsh dev : Nat) (f : LFlags) (index : Nat) :
    Nat → Nat → Nat → Option (ν × Nat) → ν × Nat → Run ν σ → Run ν σ
  | 0, _, _, _, _, m => emit Ev.fuelOut m
  | fuel + 1, next, remaining, par, cur, m =>
    if 0 < remaining ∧ ops.has_children m.st cur.1 = true then
      match collectComp ops.plb nameMax remaining next [] with
      | CollectRes.tooLong =>
        cleanupRefs ops par (some cur) none (answer0 Errno.ENAMETOOLONG m)
      | CollectRes.ok name stop rem =>
        if name = [] then emit Ev.assertFailed m
        else
          let next2 := stop + 1
          let rem2 := rem - 1
          let pr := ops.matchNode m.st cur.1 name
          let m1 := { m with st := pr.2, tr := m.tr ++ [Ev.callMatch] }
          match pr.1 with
          | none =>
            if 0 < rem2 then
              cleanupRefs ops par (some cur) none (answer0 Errno.ENOENT m1)
            else if f.create || f.link then
              if ¬ops.is_directory m1.st cur.1 = true then
                cleanupRefs ops par (some cur) none (answer0 Errno.ENOTDIR m1)
              else linkChild ops fsh dev f index par cur name m1
            else if f.parent then
              cleanupRefs ops par (some cur) none
                (answer0 Errno.ENOENT
                  (answer5 Errno.EOK fsh dev (ops.index_get m1.st cur.1)
                    (ops.size_get m1.st cur.1) (ops.lnkcnt_get m1.st cur.1) m1))
            else cleanupRefs ops par (some cur) none (answer0 Errno.ENOENT m1)
          | some t =>
            let m2 := { m1 with ctr := m1.ctr + 1, tr := m1.tr ++ [Ev.acqNav m1.ctr t] }
            let m3 := putRef ops par m2
            lookupLoop ops nameMax fsh dev f index fuel next2 rem2 (some cur) (t, m1.ctr) m3
    else afterLoop ops nameMax fsh dev f index next remaining par cur m

/-- `libfs_lookup` (window.c lines 1308-1507): wraparound adjustment
`last += PLB_SIZE`, root acquisition, leading-separator skip, then the
walk loop. -/
def libfs_lookup (ops : LibfsOps ν σ) (plbSize nameMax fsh : Nat)
    (next last dev : Nat) (f : LFlags) (index : Nat) (st : σ) : Run ν σ :=
  let last1 := if last < next then last + plbSize else last
  let pr := ops.root_get st dev
  let m : Run ν σ := ⟨pr.2, 1, [Ev.acqNav 0 pr.1]⟩
  let cur : ν × Nat := (pr.1, 0)
  let nr : Nat × Nat :=
    if ops.plb next = '/' then (next + 1, last1 + 1 - (next + 1))
    else (next, last1 + 1 - next)
  lookupLoop ops nameMax fsh dev f index (nr.2 + 1) nr.1 nr.2 none cur m

/-- Replies contained in a trace, in order. -/
def repliesOf (tr : List (Ev ν)) : List Reply :=
  tr.filterMap fun e =>
    match e with
    | Ev.reply r => some r
    | _ => none

/-- Replies of a run. -/
def Run.replies (m : Run ν σ) : List Reply := repliesOf m.tr

/-- Serials of references acquired into the `par`/`cur`/`tmp`
navigation lineage. -/
def navSerials (tr : List (Ev ν)) : List Nat :=
  tr.filterMap fun e =>
    match e with
    | Ev.acqNav s _ => some s
    | _ => none

/-- Serials of all acquired references. -/
def acqSerials (tr : List (Ev ν)) : List Nat :=
  tr.filterMap fun e =>
    match e with
    | Ev.acqNav s _ => some s
    | Ev.acqFn s _ => some s
    | _ => none

/-- Serials mentioned by any acquisition, release or destruction. -/
def usedSerials (tr : List (Ev ν)) : List Nat :=
  tr.filterMap fun e =>
    match e with
    | Ev.acqNav s _ => some s
    | Ev.acqFn s _ => some s
    | Ev.put s _ => some s
    | Ev.destroyN s _ => some s
    | _ => none

/-- Number of `node_put` events for the reference with serial `s`. -/
def putCount (s : Nat) (tr : List (Ev ν)) : Nat :=
  (tr.filter fun e =>
    match e with
    | Ev.put s' _ => decide (s' = s)
    | _ => false).length

/-! ### The registration handshake `fs_register` (window.c lines 1233-1294) -/

/-- Environment of one `fs_register` run: the outcome each coordinator
call would produce. -/
structure RegEnv where
  dataWriteRc : Errno
  connectRc : Errno
  mappablePage : Option Nat
  shareInRc : Errno
  answerRetval : Errno
  answerFsHandle : Nat
deriving DecidableEq

/-- Steps of the handshake, as trace events. -/
inductive RegEv where
  | sendRegister
  | callDataWrite
  | callConnectToMe
  | callGetPage
  | callShareIn
  | awaitAnswer
  | newConnection
  | setClientConn
deriving DecidableEq

/-- Result of one `fs_register` run: ordered step trace, returned
status, and the filesystem handle recorded in `reg` (absent when the
function returned before picking up the answer). -/
structure RegResult where
  events : List RegEv
  ret : Errno
  fsHandle : Option Nat
deriving DecidableEq

/-- `fs_register`: open the asynchronous `VFS_REGISTER` call, transfer
the info structure, ask for the callback connection (its status is not
inspected by the source), reserve the PLB region, share the buffer,
then pick up the pending answer; each checked failure first awaits the
pending call.  On success, accept the callback connection and return
the answer's status. -/
def fs_register (env : RegEnv) : RegResult :=
  let ev := [RegEv.sendRegister, RegEv.callDataWrite]
  if env.dataWriteRc ≠ Errno.EOK then
    ⟨ev ++ [RegEv.awaitAnswer], env.dataWriteRc, none⟩
  else
    let ev := ev ++ [RegEv.callConnectToMe, RegEv.callGetPage]
    match env.mappablePage with
    | none => ⟨ev ++ [RegEv.awaitAnswer], Errno.ENOMEM, none⟩
    | some _ =>
      let ev := ev ++ [RegEv.callShareIn]
      if env.shareInRc ≠ Errno.EOK then
        ⟨ev ++ [RegEv.awaitAnswer], env.shareInRc, none⟩
      else
        ⟨ev ++ [RegEv.awaitAnswer, RegEv.newConnection, RegEv.setClientConn],
          env.answerRetval, some env.answerFsHandle⟩

/-! ### A small concrete backend used for witnesses

Node table over `ν = Nat`: node 0 is the root directory with children
`"f"` (node 1, a file) and `"a"` (node 2, a directory); node 2 has the
child `"b"` (node 3, a file).  The backend state `σ = Nat` is the link
count of node 3, so `unlink` visibly decrements it.  The link outcome
and the creation outcome are parameters so witnesses can exercise the
failure branches. -/

/-- Read the path buffer from a string laid out at offset 0. -/
def strBuf (s : String) : Nat → Char := fun i => s.toList.getD i 'q'

/-- The concrete witness backend. -/
def mkOps (g : Nat → Char) (linkRc : Errno) (createRes : Option Nat) :
    LibfsOps Nat Nat where
  plb := g
  root_get := fun st _ => (0, st)
  has_children := fun _ n => n == 0 || n == 2
  is_directory := fun _ n => n == 0 || n == 2
  is_file := fun _ n => n == 1 || n == 3
  matchNode := fun st n name =>
    if n == 0 && name == ['f'] then (some 1, st)
    else if n == 0 && name == ['a'] then (some 2, st)
    else if n == 2 && name == ['b'] then (some 3, st)
    else (none, st)
  create := fun st _ _ => (createRes, st)
  node_get := fun st _ _ => (some 8, st)
  link := fun st _ _ _ => (linkRc, st)
  unlink := fun st _ _ => (Errno.EOK, st - 1)
  destroy := fun st _ => (Errno.EOK, st)
  node_put := fun st _ => st
  index_get := fun _ n => n + 40
  size_get := fun _ n => n + 50
  lnkcnt_get := fun st n => if n == 3 then st else 1

/-- Flag sets used by witnesses. -/
def flagsNone : LFlags := ⟨false, false, false, false, false, false, false⟩

def flagsParent : LFlags := ⟨false, false, false, true, false, false, false⟩

def flagsUnlink : LFlags := ⟨false, false, false, false, true, false, false⟩

def flagsCreate : LFlags := ⟨true, false, false, false, false, false, false⟩

def flagsCreateExcl : LFlags := ⟨true, true, false, false, false, false, false⟩

def flagsCreateLink : LFlags := ⟨true, false, true, false, false, false, false⟩

def flagsLink : LFlags := ⟨false, false, true, false, false, false, false⟩

/-! ### Trace algebra -/

/-- The put events `if (x) ops->node_put(x)` contributes to the trace. -/
def putEv : Option (ν × Nat) → List (Ev ν)
  | none => []
  | some p => [Ev.put p.2 p.1]

@[simp]
theorem putEv_none : putEv (none : Option (ν × Nat)) = [] := rfl

@[simp]
theorem putEv_some (p : ν × Nat) : putEv (some p) = [Ev.put p.2 p.1] := rfl

@[simp]
theorem putRef_none (ops : LibfsOps ν σ) (m : Run ν σ) : putRef ops none m = m := rfl

@[simp]
theorem putRef_tr (ops : LibfsOps ν σ) (r : Option (ν × Nat)) (m : Run ν σ) :
    (putRef ops r m).tr = m.tr ++ putEv r := by
  cases r <;> simp [putRef, putEv]

@[simp]
theorem putRef_ctr (ops : LibfsOps ν σ) (r : Option (ν × Nat)) (m : Run ν σ) :
    (putRef ops r m).ctr = m.ctr := by
  cases r <;> rfl

@[simp]
theorem emit_tr (e : Ev ν) (m : Run ν σ) : (emit e m).tr = m.tr ++ [e] := rfl

@[simp]
theorem answer0_tr (rc : Errno) (m : Run ν σ) :
    (answer0 rc m).tr = m.tr ++ [Ev.reply (Reply.status rc)] := rfl

@[simp]
theorem answer5_tr (rc : Errno) (a b c d e : Nat) (m : Run ν σ) :
    (answer5 rc a b c d e m).tr = m.tr ++ [Ev.reply (Reply.quintet rc a b c d e)] := rfl

@[simp]
theorem cleanupRefs_tr (ops : LibfsOps ν σ) (par cur tmp : Option (ν × Nat))
    (m : Run ν σ) :
    (cleanupRefs ops par cur tmp m).tr = m.tr ++ (putEv par ++ (putEv cur ++ putEv tmp)) := by
  simp [cleanupRefs]

@[simp]
theorem repliesOf_nil : repliesOf ([] : List (Ev ν)) = [] := rfl

@[simp]
theorem repliesOf_append (a b : List (Ev ν)) :
    repliesOf (a ++ b) = repliesOf a ++ repliesOf b := by
  simp [repliesOf]

@[simp]
theorem repliesOf_cons (e : Ev ν) (a : List (Ev ν)) :
    repliesOf (e :: a)
      = (match e with | Ev.reply r => [r] | _ => []) ++ repliesOf a := by
  cases e <;> simp [repliesOf]

@[simp]
theorem repliesOf_putEv (r : Option (ν × Nat)) : repliesOf (putEv r) = [] := by
  cases r <;> simp [putEv]

@[simp]
theorem navSerials_nil : navSerials ([] : List (Ev ν)) = [] := rfl

@[simp]
theorem navSerials_append (a b : List (Ev ν)) :
    navSerials (a ++ b) = navSerials a ++ navSerials b := by
  simp [navSerials]

@[simp]
theorem navSerials_cons (e : Ev ν) (a : List (Ev ν)) :
    navSerials (e :: a)
      = (match e with | Ev.acqNav s _ => [s] | _ => []) ++ navSerials a := by
  cases e <;> simp [navSerials]

@[simp]
theorem navSerials_putEv (r : Option (ν × Nat)) : navSerials (putEv r) = [] := by
  cases r <;> simp [putEv]

@[simp]
theorem usedSerials_nil : usedSerials ([] : List (Ev ν)) = [] := rfl

@[simp]
theorem usedSerials_append (a b : List (Ev ν)) :
    usedSerials (a ++ b) = usedSerials a ++ usedSerials b := by
  simp [usedSerials]

@[simp]
theorem usedSerials_cons (e : Ev ν) (a : List (Ev ν)) :
    usedSerials (e :: a)
      = (match e with
          | Ev.acqNav s _ => [s] | Ev.acqFn s _ => [s]
          | Ev.put s _ => [s] | Ev.destroyN s _ => [s]
          | _ => []) ++ usedSerials a := by
  cases e <;> simp [usedSerials]

@[simp]
theorem putCount_nil (s : Nat) : putCount s ([] : List (Ev ν)) = 0 := rfl

@[simp]
theorem putCount_append (s : Nat) (a b : List (Ev ν)) :
    putCount s (a ++ b) = putCount s a + putCount s b := by
  simp [putCount]

@[simp]
theorem putCount_cons (s : Nat) (e : Ev ν) (a : List (Ev ν)) :
    putCount s (e :: a)
      = (match e with | Ev.put s' _ => if s' = s then 1 else 0 | _ => 0) + putCount s a := by
  cases e with
  | put s' n => by_cases h : s' = s <;> simp [putCount, h, Nat.add_comm]
  | _ => simp [putCount]

theorem navSerials_subset_used (tr : List (Ev ν)) :
    ∀ s ∈ navSerials tr, s ∈ usedSerials tr := by
  intro s hs
  induction tr with
  | nil => simp at hs
  | cons e a ih =>
    rcases e <;> simp_all
    all_goals tauto

@[simp]
theorem putRef_replies (ops : LibfsOps ν σ) (r : Option (ν × Nat)) (m : Run ν σ) :
    (putRef ops r m).replies = m.replies := by
  simp [Run.replies]

/-- Every branch of the post-`PARENT` hit handling emits exactly one
reply, and that reply is the bare `EEXIST` status only when the
`EEXIST` guard of the source held. -/
theorem handleHitTail_one_reply (ops : LibfsOps ν σ) (fsh dev : Nat) (f : LFlags)
    (par : Option (ν × Nat)) (cur : ν × Nat) (m : Run ν σ) :
    ∃ r, (handleHitTail ops fsh dev f par cur m).replies = m.replies ++ [r] ∧
      (r = Reply.status Errno.EEXIST →
        f.unlink = false ∧ ((f.create && f.exclusive) || f.link) = true) := by
  unfold handleHitTail
  split_ifs with h1 h2 h3 h4
  · exact ⟨Reply.quintet (ops.unlink m.st (par.map Prod.fst) cur.1).1 fsh dev
      (ops.index_get (ops.unlink m.st (par.map Prod.fst) cur.1).2 cur.1)
      (ops.size_get (ops.unlink m.st (par.map Prod.fst) cur.1).2 cur.1)
      (ops.lnkcnt_get m.st cur.1), by simp [Run.replies], fun h => by simp at h⟩
  · exact ⟨Reply.status Errno.EEXIST, by simp [Run.replies],
      fun _ => ⟨by simp [h1], h2⟩⟩
  · exact ⟨Reply.status Errno.EISDIR, by simp [Run.replies], fun h => by simp at h⟩
  · exact ⟨Reply.status Errno.ENOTDIR, by simp [Run.replies], fun h => by simp at h⟩
  · exact ⟨Reply.quintet Errno.EOK fsh dev (ops.index_get m.st cur.1)
      (ops.size_get m.st cur.1) (ops.lnkcnt_get m.st cur.1),
      by simp [Run.replies], fun h => by simp at h⟩

/-! ### Claims -/

/-- C1: the claim states that `libfs_lookup` produces exactly one reply
on every branch, including the PARENT-flag miss on the final
component.  The source violates this: in that branch (window.c lines
1390-1397) the `ipc_answer_5` for the parent triplet falls through to
an unconditional `ipc_answer_0(rid, ENOENT)`, so two replies are sent
for one request.  This theorem evaluates the engine at such a request
(path `"/x"` with `x` missing under the root, flags `= L_PARENT`). -/
theorem C1_parent_miss_double_reply :
    (libfs_lookup (mkOps (strBuf "/x") Errno.EOK (some 7)) 4096 256 11 0 1 9
        flagsParent 0 5).replies
      = [Reply.quintet Errno.EOK 11 9 40 50 1, Reply.status Errno.ENOENT] ∧
    ((libfs_lookup (mkOps (strBuf "/x") Errno.EOK (some 7)) 4096 256 11 0 1 9
        flagsParent 0 5).replies).length = 2 := by
  decide

/-- C3: when the hit handling runs with the `UNLINK` flag, the link
count is read from the state *before* the backend `unlink` call, the
unlink is performed, and the single reply carries the unlink status
`res` together with that pre-unlink link count (index and size are
read from the post-unlink state, as in the source). -/
theorem C3_unlink_pre_count (ops : LibfsOps ν σ) (fsh dev : Nat) (f : LFlags)
    (par : Option (ν × Nat)) (cur : ν × Nat) (m : Run ν σ) (res : Errno) (st' : σ)
    (hu : f.unlink = true)
    (hres : ops.unlink m.st (par.map Prod.fst) cur.1 = (res, st')) :
    (handleHitTail ops fsh dev f par cur m).replies
      = m.replies ++ [Reply.quintet res fsh dev (ops.index_get st' cur.1)
          (ops.size_get st' cur.1) (ops.lnkcnt_get m.st cur.1)] ∧
    Ev.callUnlink ∈ (handleHitTail ops fsh dev f par cur m).tr := by
  constructor <;> simp [handleHitTail, hu, hres, Run.replies]

/-- Witness for C3: node 3 of the concrete backend has link count 5;
its unlink succeeds and decrements the count, yet the reply carries the
pre-unlink count 5. -/
theorem C3_unlink_pre_count_witness :
    (handleHitTail (mkOps (strBuf "b") Errno.EOK none) 11 9 flagsUnlink (some (2, 1))
        (3, 2) ⟨5, 3, []⟩).replies = [Reply.quintet Errno.EOK 11 9 43 53 5] ∧
    Ev.callUnlink ∈ (handleHitTail (mkOps (strBuf "b") Errno.EOK none) 11 9 flagsUnlink
        (some (2, 1)) (3, 2) ⟨5, 3, []⟩).tr := by
  have h := C3_unlink_pre_count (mkOps (strBuf "b") Errno.EOK none) 11 9 flagsUnlink
    (some (2, 1)) (3, 2) ⟨5, 3, []⟩ Errno.EOK 4 rfl rfl
  simpa using h

/-- C8: hit on an existing node.  First part: if `UNLINK` is not set,
and the `PARENT` substitution (when requested) found a parent, then a
flag set containing `CREATE` and `EXCLUSIVE` together, or containing
`LINK`, makes the engine reply exactly `AlreadyExists`.  Second part:
`CREATE` without `EXCLUSIVE` and without `LINK` never produces the
`AlreadyExists` reply on a hit. -/
theorem C8_hit_eexist (ops : LibfsOps ν σ) (fsh dev : Nat) (f : LFlags)
    (par : Option (ν × Nat)) (cur : ν × Nat) (m : Run ν σ) :
    (f.unlink = false → ((f.create && f.exclusive) || f.link) = true →
      (f.parent = true → par ≠ none) →
      (handleHit ops fsh dev f par cur m).replies
        = m.replies ++ [Reply.status Errno.EEXIST]) ∧
    (f.create = true → f.exclusive = false → f.link = false →
      ∃ r, (handleHit ops fsh dev f par cur m).replies = m.replies ++ [r] ∧
        r ≠ Reply.status Errno.EEXIST) := by
  constructor
  · intro hu hcl hp
    cases hpar : f.parent with
    | false => simp [handleHit, handleHitTail, hpar, hu, hcl, Run.replies]
    | true =>
      cases par with
      | none => exact absurd (hp hpar) (by simp)
      | some p => simp [handleHit, handleHitTail, hpar, hu, hcl, Run.replies]
  · intro hc he hl
    have hcl : ((f.create && f.exclusive) || f.link) = false := by simp [he, hl]
    cases hpar : f.parent with
    | false =>
      obtain ⟨r, hr, himp⟩ := handleHitTail_one_reply ops fsh dev f par cur m
      refine ⟨r, by simp [handleHit, hpar, hr], fun hcontra => ?_⟩
      have := (himp hcontra).2
      rw [hcl] at this
      cases this
    | true =>
      cases par with
      | none =>
        refine ⟨Reply.status Errno.ENOENT, ?_, by simp⟩
        simp [handleHit, hpar, Run.replies]
      | some p =>
        obtain ⟨r, hr, himp⟩ :=
          handleHitTail_one_reply ops fsh dev f none p (putRef ops (some cur) m)
        refine ⟨r, ?_, fun hcontra => ?_⟩
        · rw [show (handleHit ops fsh dev f (some p) cur m)
              = handleHitTail ops fsh dev f none p (putRef ops (some cur) m) by
              simp [handleHit, hpar]]
          rw [hr]; simp
        · have := (himp hcontra).2
          rw [hcl] at this
          cases this

/-- Witness for C8: a hit with `CREATE|EXCLUSIVE` on an existing node
of the concrete backend replies `AlreadyExists`. -/
theorem C8_hit_eexist_witness :
    (handleHit (mkOps (strBuf "b") Errno.EOK none) 11 9 flagsCreateExcl none
        (3, 2) ⟨5, 3, []⟩).replies = [Reply.status Errno.EEXIST] := by
  have h := (C8_hit_eexist (mkOps (strBuf "b") Errno.EOK none) 11 9 flagsCreateExcl none
    (3, 2) ⟨5, 3, []⟩).1 rfl rfl (fun hcon => by cases hcon)
  simpa using h

/-- C9 counterexample: the claim says every fallible step after the
registration call propagates the first failing step's error code.  The
source never inspects the status of the callback-channel request
(`ipc_connect_to_me`, window.c line 1256): in an environment where that
step fails and everything else succeeds, `fs_register` still returns
the answer's `EOK`, not the failing step's code. -/
theorem C9_connect_failure_ignored :
    (⟨Errno.EOK, Errno.other 3, some 4, Errno.EOK, Errno.EOK, 7⟩ : RegEnv).connectRc
        ≠ Errno.EOK ∧
    (fs_register ⟨Errno.EOK, Errno.other 3, some 4, Errno.EOK, Errno.EOK, 7⟩).ret
        = Errno.EOK ∧
    (fs_register ⟨Errno.EOK, Errno.other 3, some 4, Errno.EOK, Errno.EOK, 7⟩).ret
        ≠ (⟨Errno.EOK, Errno.other 3, some 4, Errno.EOK, Errno.EOK, 7⟩ : RegEnv).connectRc := by
  decide

/-- C9 (amended): every step whose outcome `fs_register` checks — the
VFS-info transfer, the PLB address-space reservation, and the
buffer-share request — awaits the pending registration call before
returning, and the first failing checked step's code (out-of-memory
for the reservation) is the one propagated; the callback-channel
request's status is not checked; on full success the handshake returns
the status carried by the registration call's answer, after awaiting
it. -/
theorem C9_register_failures_await (env : RegEnv) :
    (env.dataWriteRc ≠ Errno.EOK →
      fs_register env = ⟨[RegEv.sendRegister, RegEv.callDataWrite, RegEv.awaitAnswer],
        env.dataWriteRc, none⟩) ∧
    (env.dataWriteRc = Errno.EOK → env.mappablePage = none →
      fs_register env = ⟨[RegEv.sendRegister, RegEv.callDataWrite, RegEv.callConnectToMe,
        RegEv.callGetPage, RegEv.awaitAnswer], Errno.ENOMEM, none⟩) ∧
    (env.dataWriteRc = Errno.EOK → ∀ p, env.mappablePage = some p →
      env.shareInRc ≠ Errno.EOK →
      fs_register env = ⟨[RegEv.sendRegister, RegEv.callDataWrite, RegEv.callConnectToMe,
        RegEv.callGetPage, RegEv.callShareIn, RegEv.awaitAnswer], env.shareInRc, none⟩) ∧
    (env.dataWriteRc = Errno.EOK → ∀ p, env.mappablePage = some p →
      env.shareInRc = Errno.EOK →
      fs_register env = ⟨[RegEv.sendRegister, RegEv.callDataWrite, RegEv.callConnectToMe,
        RegEv.callGetPage, RegEv.callShareIn, RegEv.awaitAnswer, RegEv.newConnection,
        RegEv.setClientConn], env.answerRetval, some env.answerFsHandle⟩) := by
  refine ⟨fun h1 => ?_, fun h1 h2 => ?_, fun h1 p h2 h3 => ?_, fun h1 p h2 h3 => ?_⟩ <;>
    simp [fs_register, h1]
  · rw [h2]
  · rw [h2]; simp [h3]
  · rw [h2]; simp [h3]

/-- Witness for C9 (amended): a failing VFS-info transfer returns its
own code after awaiting the pending call. -/
theorem C9_register_failures_await_witness :
    fs_register ⟨Errno.other 9, Errno.EOK, some 4, Errno.EOK, Errno.EOK, 7⟩
      = ⟨[RegEv.sendRegister, RegEv.callDataWrite, RegEv.awaitAnswer],
        Errno.other 9, none⟩ :=
  (C9_register_failures_await ⟨Errno.other 9, Errno.EOK, some 4, Errno.EOK, Errno.EOK, 7⟩).1
    (by decide)

/-- C5: one iteration of the walk loop in which the component misses
(`match` returns nothing) while unconsumed characters remain beyond the
component replies `ENOENT` and stops — the right-hand side does not
depend on the flag set `f`, so this holds for every flag combination,
`CREATE` and `LINK` included. -/
theorem C5_intermediate_miss (ops : LibfsOps ν σ) (nameMax fsh dev : Nat) (f : LFlags)
    (index fuel next remaining : Nat) (par : Option (ν × Nat)) (cur : ν × Nat)
    (m : Run ν σ) (name : List Char) (stop rem : Nat) (st' : σ)
    (h1 : 0 < remaining) (h2 : ops.has_children m.st cur.1 = true)
    (h3 : collectComp ops.plb nameMax remaining next [] = CollectRes.ok name stop rem)
    (h4 : name ≠ [])
    (h5 : ops.matchNode m.st cur.1 name = (none, st'))
    (h6 : 0 < rem - 1) :
    lookupLoop ops nameMax fsh dev f index (fuel + 1) next remaining par cur m
      = cleanupRefs ops par (some cur) none
          (answer0 Errno.ENOENT { m with st := st', tr := m.tr ++ [Ev.callMatch] }) ∧
    (lookupLoop ops nameMax fsh dev f index (fuel + 1) next remaining par cur m).replies
      = m.replies ++ [Reply.status Errno.ENOENT] := by
  have key : lookupLoop ops nameMax fsh dev f index (fuel + 1) next remaining par cur m
      = cleanupRefs ops par (some cur) none
          (answer0 Errno.ENOENT { m with st := st', tr := m.tr ++ [Ev.callMatch] }) := by
    rw [lookupLoop, if_pos ⟨h1, h2⟩, h3]
    simp only [h5, if_neg h4, if_pos h6]
  exact ⟨key, by rw [key]; simp [Run.replies]⟩

/-- Witness for C5: on the concrete backend, the request `"x/y"` with
both `CREATE` and `LINK` set misses on the intermediate component `x`
and replies `ENOENT`. -/
theorem C5_intermediate_miss_witness :
    (lookupLoop (mkOps (strBuf "x/y") Errno.EOK (some 7)) 256 11 9 flagsCreateLink 0
        (9 + 1) 0 3 none (0, 0) ⟨5, 1, [Ev.acqNav 0 0]⟩).replies
      = [Reply.status Errno.ENOENT] := by
  have h := (C5_intermediate_miss (mkOps (strBuf "x/y") Errno.EOK (some 7)) 256 11 9
    flagsCreateLink 0 9 0 3 none (0, 0) ⟨5, 1, [Ev.acqNav 0 0]⟩ ['x'] 1 2 5
    (by decide) (by decide) (by decide) (by decide) (by decide) (by decide)).2
  simpa [Run.replies] using h

/-- If the `nameMax - acc.length - 1` characters that would complete
the component to the maximum name length are all in range and none is a
separator, the in-loop collection reports overflow. -/
theorem collectComp_overflow (g : Nat → Char) (nameMax : Nat) :
    ∀ (k remaining next : Nat) (acc : List Char),
      acc.length + 1 + k = nameMax →
      (∀ j ≤ k, j < remaining ∧ g (next + j) ≠ '/') →
      collectComp g nameMax remaining next acc = CollectRes.tooLong := by
  intro k
  induction k with
  | zero =>
    intro remaining next acc hlen hj
    obtain ⟨hr, hs⟩ := hj 0 (Nat.le_refl 0)
    cases remaining with
    | zero => omega
    | succ r =>
      rw [collectComp, if_neg (by simpa using hs), if_pos (by omega)]
  | succ k ih =>
    intro remaining next acc hlen hj
    obtain ⟨hr, hs⟩ := hj 0 (Nat.zero_le _)
    cases remaining with
    | zero => omega
    | succ r =>
      rw [collectComp, if_neg (by simpa using hs), if_neg (by omega)]
      apply ih
      · simp only [List.length_append, List.length_cons, List.length_nil]
        omega
      · intro j hjk
        obtain ⟨hj1, hj2⟩ := hj (j + 1) (by omega)
        refine ⟨by omega, ?_⟩
        have he : next + 1 + j = next + (j + 1) := by omega
        rw [he]
        exact hj2

/-- A component of length `L` with `L + 1 ≤ nameMax`, terminated by a
separator or by the end of the range, is collected verbatim. -/
theorem collectComp_ok (g : Nat → Char) (nameMax : Nat) :
    ∀ (L remaining next : Nat) (acc : List Char),
      acc.length + L + 1 ≤ nameMax →
      (∀ j < L, j < remaining ∧ g (next + j) ≠ '/') →
      (remaining = L ∨ (L < remaining ∧ g (next + L) = '/')) →
      collectComp g nameMax remaining next acc
        = CollectRes.ok (acc ++ (List.range L).map (fun j => g (next + j)))
            (next + L) (remaining - L) := by
  intro L
  induction L with
  | zero =>
    intro remaining next acc hlen hj hterm
    rcases hterm with h | ⟨hl, hs⟩
    · subst h
      rw [collectComp]
      simp
    · cases remaining with
      | zero => omega
      | succ r =>
        rw [collectComp, if_pos (by simpa using hs)]
        simp
  | succ L ih =>
    intro remaining next acc hlen hj hterm
    obtain ⟨hr, hs⟩ := hj 0 (by omega)
    cases remaining with
    | zero => omega
    | succ r =>
      rw [collectComp, if_neg (by simpa using hs), if_neg (by omega)]
      rw [ih r (next + 1) (acc ++ [g next])
        (by simp only [List.length_append, List.length_cons, List.length_nil]; omega)
        (fun j hjL => by
          obtain ⟨hj1, hj2⟩ := hj (j + 1) (by omega)
          refine ⟨by omega, ?_⟩
          have he : next + 1 + j = next + (j + 1) := by omega
          rw [he]
          exact hj2)
        (by
          rcases hterm with h | ⟨hl, hsl⟩
          · exact Or.inl (by omega)
          · refine Or.inr ⟨by omega, ?_⟩
            have he : next + 1 + L = next + (L + 1) := by omega
            rw [he]
            exact hsl)]
      have hmap : (List.range (L + 1)).map (fun j => g (next + j))
          = g next :: (List.range L).map (fun j => g (next + 1 + j)) := by
        rw [List.range_succ_eq_map, List.map_cons, List.map_map]
        refine congrArg₂ _ (by rw [Nat.add_zero]) (List.map_congr_left fun j _ => ?_)
        show g (next + (j + 1)) = g (next + 1 + j)
        exact congrArg g (by omega)
      rw [hmap]
      have hst : next + 1 + L = next + (L + 1) := by omega
      rw [hst, Nat.succ_sub_succ]
      simp

/-- If the `nameMax - acc.length - 1` characters that would complete
the component to the maximum name length are all in range and none is a
separator, the post-loop collection reports overflow, too. -/
theorem collectLast_overflow (g : Nat → Char) (nameMax : Nat) :
    ∀ (k remaining next : Nat) (acc : List Char),
      acc.length + 1 + k = nameMax →
      (∀ j ≤ k, j < remaining ∧ g (next + j) ≠ '/') →
      collectLast g nameMax remaining next acc = CollectLastRes.tooLong := by
  intro k
  induction k with
  | zero =>
    intro remaining next acc hlen hj
    obtain ⟨hr, hs⟩ := hj 0 (Nat.le_refl 0)
    cases remaining with
    | zero => omega
    | succ r =>
      rw [collectLast, if_neg (by simpa using hs), if_pos (by omega)]
  | succ k ih =>
    intro remaining next acc hlen hj
    obtain ⟨hr, hs⟩ := hj 0 (Nat.zero_le _)
    cases remaining with
    | zero => omega
    | succ r =>
      rw [collectLast, if_neg (by simpa using hs), if_neg (by omega)]
      apply ih
      · simp only [List.length_append, List.length_cons, List.length_nil]
        omega
      · intro j hjk
        obtain ⟨hj1, hj2⟩ := hj (j + 1) (by omega)
        refine ⟨by omega, ?_⟩
        have he : next + 1 + j = next + (j + 1) := by omega
        rw [he]
        exact hj2

/-- A final component of length `L` with `L + 1 ≤ nameMax`, filling the
remaining range exactly and containing no separator, is collected
verbatim by the post-loop collection. -/
theorem collectLast_ok (g : Nat → Char) (nameMax : Nat) :
    ∀ (L next : Nat) (acc : List Char),
      acc.length + L + 1 ≤ nameMax →
      (∀ j < L, g (next + j) ≠ '/') →
      collectLast g nameMax L next acc
        = CollectLastRes.ok (acc ++ (List.range L).map (fun j => g (next + j))) := by
  intro L
  induction L with
  | zero =>
    intro next acc hlen hj
    rw [collectLast]
    simp
  | succ L ih =>
    intro next acc hlen hj
    have hs := hj 0 (by omega)
    rw [collectLast, if_neg (by simpa using hs), if_neg (by omega)]
    rw [ih (next + 1) (acc ++ [g next])
      (by simp only [List.length_append, List.length_cons, List.length_nil]; omega)
      (fun j hjL => by
        have hj2 := hj (j + 1) (by omega)
        have he : next + 1 + j = next + (j + 1) := by omega
        rw [he]
        exact hj2)]
    have hmap : (List.range (L + 1)).map (fun j => g (next + j))
        = g next :: (List.range L).map (fun j => g (next + 1 + j)) := by
      rw [List.range_succ_eq_map, List.map_cons, List.map_map]
      refine congrArg₂ _ (by rw [Nat.add_zero]) (List.map_congr_left fun j _ => ?_)
      show g (next + (j + 1)) = g (next + 1 + j)
      exact congrArg g (by omega)
    rw [hmap]
    simp

/-- C6: a component whose first `nameMax` characters are in range with
no separator among them (in particular a component of length exactly
`nameMax`) makes the engine reply `NameTooLong` and stop before any
`match`, `create` or `link` call for that component, at both collection
sites: in the walk loop (first conjunct) and in the post-loop handling
of the final component under `CREATE`/`LINK` (second conjunct) — in
both cases the run equals the bare error reply plus reference cleanup,
so no node is created.  Conversely (last two conjuncts) a component of
length `L` with `L + 1 ≤ nameMax` (strictly shorter than the bound) is
extracted successfully by either collection. -/
theorem C6_name_too_long (ops : LibfsOps ν σ) (nameMax fsh dev : Nat) (f : LFlags)
    (index fuel next remaining : Nat) (par : Option (ν × Nat)) (cur : ν × Nat)
    (m : Run ν σ)
    (hnm : 0 < nameMax)
    (hlong : ∀ j < nameMax, j < remaining ∧ ops.plb (next + j) ≠ '/') :
    (ops.has_children m.st cur.1 = true →
      lookupLoop ops nameMax fsh dev f index (fuel + 1) next remaining par cur m
        = cleanupRefs ops par (some cur) none (answer0 Errno.ENAMETOOLONG m) ∧
      (lookupLoop ops nameMax fsh dev f index (fuel + 1) next remaining par cur m).replies
        = m.replies ++ [Reply.status Errno.ENAMETOOLONG]) ∧
    (¬ops.has_children m.st cur.1 = true →
      (f.create || f.link) = true →
      ops.is_directory m.st cur.1 = true →
      afterLoop ops nameMax fsh dev f index next remaining par cur m
        = cleanupRefs ops par (some cur) none (answer0 Errno.ENAMETOOLONG m) ∧
      (afterLoop ops nameMax fsh dev f index next remaining par cur m).replies
        = m.replies ++ [Reply.status Errno.ENAMETOOLONG]) ∧
    (∀ (L remaining' next' : Nat), L + 1 ≤ nameMax →
      (∀ j < L, j < remaining' ∧ ops.plb (next' + j) ≠ '/') →
      (remaining' = L ∨ (L < remaining' ∧ ops.plb (next' + L) = '/')) →
      collectComp ops.plb nameMax remaining' next' []
        = CollectRes.ok ((List.range L).map (fun j => ops.plb (next' + j)))
            (next' + L) (remaining' - L)) ∧
    (∀ (L next' : Nat), L + 1 ≤ nameMax →
      (∀ j < L, ops.plb (next' + j) ≠ '/') →
      collectLast ops.plb nameMax L next' []
        = CollectLastRes.ok ((List.range L).map (fun j => ops.plb (next' + j)))) := by
  refine ⟨fun hch => ?_, fun hch hcl hdir => ?_, fun L remaining' next' hL hshort hterm => ?_,
    fun L next' hL hshort => ?_⟩
  · have hover : collectComp ops.plb nameMax remaining next [] = CollectRes.tooLong := by
      apply collectComp_overflow ops.plb nameMax (nameMax - 1)
      · simp only [List.length_nil]
        omega
      · intro j hj
        exact hlong j (by omega)
    have key : lookupLoop ops nameMax fsh dev f index (fuel + 1) next remaining par cur m
        = cleanupRefs ops par (some cur) none (answer0 Errno.ENAMETOOLONG m) := by
      rw [lookupLoop, if_pos ⟨(hlong 0 hnm).1, hch⟩, hover]
    exact ⟨key, by rw [key]; simp [Run.replies]⟩
  · have hover : collectLast ops.plb nameMax remaining next [] = CollectLastRes.tooLong := by
      apply collectLast_overflow ops.plb nameMax (nameMax - 1)
      · simp only [List.length_nil]
        omega
      · intro j hj
        exact hlong j (by omega)
    have key : afterLoop ops nameMax fsh dev f index next remaining par cur m
        = cleanupRefs ops par (some cur) none (answer0 Errno.ENAMETOOLONG m) := by
      unfold afterLoop
      rw [if_pos ⟨(hlong 0 hnm).1, hch⟩, if_pos hcl, if_neg (by simp [hdir]), hover]
    exact ⟨key, by rw [key]; simp [Run.replies]⟩
  · have := collectComp_ok ops.plb nameMax L remaining' next' []
      (by simpa using hL) hshort hterm
    simpa using this
  · have := collectLast_ok ops.plb nameMax L next' [] (by simpa using hL) hshort
    simpa using this

/-- A concrete backend with an empty directory: root node 0 has the
single child `"e"` (node 4), a directory with no children, so a lookup
of `"/e/abc"` leaves the walk loop with characters remaining. -/
def emptyDirOps : LibfsOps Nat Nat where
  plb := strBuf "/e/abc"
  root_get := fun st _ => (0, st)
  has_children := fun _ n => n == 0
  is_directory := fun _ n => n == 0 || n == 4
  is_file := fun _ n => n == 1
  matchNode := fun st n name =>
    if n == 0 && name == ['e'] then (some 4, st) else (none, st)
  create := fun st _ _ => (some 7, st)
  node_get := fun st _ _ => (some 8, st)
  link := fun st _ _ _ => (Errno.EOK, st)
  unlink := fun st _ _ => (Errno.EOK, st)
  destroy := fun st _ => (Errno.EOK, st)
  node_put := fun st _ => st
  index_get := fun _ n => n + 40
  size_get := fun _ n => n + 50
  lnkcnt_get := fun _ _ => 1

/-- Witness for C6, exercising all four conjuncts with `nameMax = 3`:
the in-loop component `"abc"` of length exactly 3 replies
`NameTooLong`; the post-loop component `"abc"` under the childless
directory node 4 with `CREATE` also replies `NameTooLong`; and both
collections extract the length-2 prefix successfully. -/
theorem C6_name_too_long_witness :
    (lookupLoop (mkOps (strBuf "abc") Errno.EOK (some 7)) 3 11 9 flagsCreate 0
        (9 + 1) 0 3 none (0, 0) ⟨5, 1, [Ev.acqNav 0 0]⟩).replies
      = [Reply.status Errno.ENAMETOOLONG] ∧
    (afterLoop emptyDirOps 3 11 9 flagsCreate 0 3 3 (some (0, 0)) (4, 1)
        ⟨5, 2, [Ev.acqNav 0 0, Ev.acqNav 1 4]⟩).replies
      = [Reply.status Errno.ENAMETOOLONG] ∧
    collectComp (mkOps (strBuf "abc") Errno.EOK (some 7)).plb 3 2 0 []
      = CollectRes.ok ['a', 'b'] 2 0 ∧
    collectLast emptyDirOps.plb 3 2 3 [] = CollectLastRes.ok ['a', 'b'] := by
  refine ⟨?_, ?_, ?_, ?_⟩
  · have h := ((C6_name_too_long (mkOps (strBuf "abc") Errno.EOK (some 7)) 3 11 9
      flagsCreate 0 9 0 3 none (0, 0) ⟨5, 1, [Ev.acqNav 0 0]⟩ (by decide)
      (by decide)).1 (by decide)).2
    simpa [Run.replies] using h
  · have h := ((C6_name_too_long emptyDirOps 3 11 9 flagsCreate 0 0 3 3 (some (0, 0))
      (4, 1) ⟨5, 2, [Ev.acqNav 0 0, Ev.acqNav 1 4]⟩ (by decide) (by decide)).2.1
      (by decide) (by decide) (by decide)).2
    simpa [Run.replies] using h
  · have h := (C6_name_too_long (mkOps (strBuf "abc") Errno.EOK (some 7)) 3 11 9
      flagsCreate 0 9 0 3 none (0, 0) ⟨5, 1, [Ev.acqNav 0 0]⟩ (by decide)
      (by decide)).2.2.1 2 2 0 (by decide) (by decide) (by decide)
    simpa using h
  · have h := (C6_name_too_long emptyDirOps 3 11 9 flagsCreate 0 0 3 3 (some (0, 0))
      (4, 1) ⟨5, 2, [Ev.acqNav 0 0, Ev.acqNav 1 4]⟩ (by decide) (by decide)).2.2.2
      2 3 (by decide) (by decide)
    simpa using h

@[simp]
theorem callNodeGet_not_mem_putEv (r : Option (ν × Nat)) :
    Ev.callNodeGet ∉ putEv r := by
  cases r <;> simp [putEv]

@[simp]
theorem callCreate_not_mem_putEv (r : Option (ν × Nat)) :
    Ev.callCreate ∉ putEv r := by
  cases r <;> simp [putEv]

/-- C4: in the create-or-resolve-then-link block, when `CREATE` is set,
the node was freshly created, and the link fails, the engine destroys
the fresh node strictly before issuing the error reply carrying the
link's code, so the orphan does not survive; when the node was obtained
by `LINK` resolution (`CREATE` clear), a failing link destroys
nothing. -/
theorem C4_create_rollback (ops : LibfsOps ν σ) (fsh dev : Nat) (f : LFlags)
    (index : Nat) (par : Option (ν × Nat)) (cur : ν × Nat) (name : List Char)
    (m : Run ν σ) (n : ν) (st1 st2 : σ) (rc : Errno) :
    (f.create = true → ops.create m.st dev f = (some n, st1) →
      ops.link st1 cur.1 n name = (rc, st2) → rc ≠ Errno.EOK →
      (linkChild ops fsh dev f index par cur name m).tr
        = m.tr ++ [Ev.callCreate, Ev.acqFn m.ctr n, Ev.callLink, Ev.destroyN m.ctr n,
            Ev.reply (Reply.status rc)] ++ putEv par ++ [Ev.put cur.2 cur.1] ∧
      (linkChild ops fsh dev f index par cur name m).replies
        = m.replies ++ [Reply.status rc]) ∧
    (f.create = false → ops.node_get m.st dev index = (some n, st1) →
      ops.link st1 cur.1 n name = (rc, st2) → rc ≠ Errno.EOK →
      (linkChild ops fsh dev f index par cur name m).tr
        = m.tr ++ [Ev.callNodeGet, Ev.acqFn m.ctr n, Ev.callLink,
            Ev.reply (Reply.status rc)] ++ putEv par ++ [Ev.put cur.2 cur.1] ∧
      (linkChild ops fsh dev f index par cur name m).replies
        = m.replies ++ [Reply.status rc]) := by
  constructor
  · intro hc hcr hlk hrc
    constructor
    · simp [linkChild, hc, hcr, hlk, hrc]
    · simp [linkChild, hc, hcr, hlk, hrc, Run.replies]
  · intro hc hng hlk hrc
    constructor
    · simp [linkChild, hc, hng, hlk, hrc]
    · simp [linkChild, hc, hng, hlk, hrc, Run.replies]

/-- Witness for C4: on the concrete backend a created node 7 fails to
link; the trace shows its destruction immediately before the error
reply. -/
theorem C4_create_rollback_witness :
    (linkChild (mkOps (strBuf "x") (Errno.other 5) (some 7)) 11 9 flagsCreate 0 none
        ((0 : Nat), 0) ['x'] ⟨5, 1, [Ev.acqNav 0 0]⟩).tr
      = [Ev.acqNav 0 0] ++ [Ev.callCreate, Ev.acqFn 1 7, Ev.callLink, Ev.destroyN 1 7,
          Ev.reply (Reply.status (Errno.other 5))] ++ putEv none ++ [Ev.put 0 0] := by
  have h := ((C4_create_rollback (mkOps (strBuf "x") (Errno.other 5) (some 7)) 11 9
    flagsCreate 0 none ((0 : Nat), 0) ['x'] ⟨5, 1, [Ev.acqNav 0 0]⟩ 7 5 5
    (Errno.other 5)).1 rfl rfl rfl (by decide)).1
  simpa using h

/-- C10: when both `CREATE` and `LINK` are set and the final component
is missing, the create-or-resolve block obtains the node via the
backend `create` operation and never calls `node_get` on the request's
link target index, whatever the outcomes of `create` and `link`. -/
theorem C10_create_precedence (ops : LibfsOps ν σ) (fsh dev : Nat) (f : LFlags)
    (index : Nat) (par : Option (ν × Nat)) (cur : ν × Nat) (name : List Char)
    (m : Run ν σ) (hc : f.create = true) (_hl : f.link = true) :
    ∃ d, (linkChild ops fsh dev f index par cur name m).tr = m.tr ++ d ∧
      Ev.callCreate ∈ d ∧ Ev.callNodeGet ∉ d := by
  rcases hcr : ops.create m.st dev f with ⟨fn, st1⟩
  cases fn with
  | none =>
    refine ⟨[Ev.callCreate, Ev.reply (Reply.status Errno.ENOSPC)] ++ putEv par
      ++ [Ev.put cur.2 cur.1], ?_, by simp, by simp⟩
    simp [linkChild, hc, hcr]
  | some n =>
    rcases hpl : ops.link st1 cur.1 n name with ⟨rc, st2⟩
    by_cases hrc : rc = Errno.EOK
    · subst hrc
      refine ⟨[Ev.callCreate, Ev.acqFn m.ctr n, Ev.callLink,
        Ev.reply (Reply.quintet Errno.EOK fsh dev (ops.index_get st2 n)
          (ops.size_get st2 n) (ops.lnkcnt_get st2 n)), Ev.put m.ctr n] ++ putEv par
        ++ [Ev.put cur.2 cur.1], ?_, by simp, by simp⟩
      simp [linkChild, hc, hcr, hpl]
    · refine ⟨[Ev.callCreate, Ev.acqFn m.ctr n, Ev.callLink, Ev.destroyN m.ctr n,
        Ev.reply (Reply.status rc)] ++ putEv par ++ [Ev.put cur.2 cur.1],
        ?_, by simp, by simp⟩
      simp [linkChild, hc, hcr, hpl, hrc]

/-- Witness for C10: with `CREATE|LINK` on the concrete backend, the
block creates node 7 and never calls `node_get`. -/
theorem C10_create_precedence_witness :
    ∃ d, (linkChild (mkOps (strBuf "x") Errno.EOK (some 7)) 11 9 flagsCreateLink 0 none
        ((0 : Nat), 0) ['x'] ⟨5, 1, [Ev.acqNav 0 0]⟩).tr
      = (⟨5, 1, [Ev.acqNav 0 0]⟩ : Run Nat Nat).tr ++ d ∧
      Ev.callCreate ∈ d ∧ Ev.callNodeGet ∉ d :=
  C10_create_precedence (mkOps (strBuf "x") Errno.EOK (some 7)) 11 9 flagsCreateLink 0
    none ((0 : Nat), 0) ['x'] ⟨5, 1, [Ev.acqNav 0 0]⟩ rfl rfl

/-! ### Shift invariance of the walk (towards the wraparound claim) -/

/-- The same operation table reading the path buffer `d` positions
later. -/
def LibfsOps.shiftPlb (ops : LibfsOps ν σ) (d : Nat) : LibfsOps ν σ :=
  { ops with plb := fun j => ops.plb (j + d) }

@[simp]
theorem shiftPlb_plb (ops : LibfsOps ν σ) (d : Nat) :
    (ops.shiftPlb d).plb = fun j => ops.plb (j + d) := rfl

theorem linkChild_shiftPlb (ops : LibfsOps ν σ) (d fsh dev : Nat) (f : LFlags)
    (index : Nat) (par : Option (ν × Nat)) (cur : ν × Nat) (name : List Char)
    (m : Run ν σ) :
    linkChild (ops.shiftPlb d) fsh dev f index par cur name m
      = linkChild ops fsh dev f index par cur name m := rfl

theorem handleHit_shiftPlb (ops : LibfsOps ν σ) (d fsh dev : Nat) (f : LFlags)
    (par : Option (ν × Nat)) (cur : ν × Nat) (m : Run ν σ) :
    handleHit (ops.shiftPlb d) fsh dev f par cur m = handleHit ops fsh dev f par cur m := rfl

@[simp]
theorem shiftPlb_has_children (ops : LibfsOps ν σ) (d : Nat) :
    (ops.shiftPlb d).has_children = ops.has_children := rfl

@[simp]
theorem shiftPlb_is_directory (ops : LibfsOps ν σ) (d : Nat) :
    (ops.shiftPlb d).is_directory = ops.is_directory := rfl

@[simp]
theorem shiftPlb_matchNode (ops : LibfsOps ν σ) (d : Nat) :
    (ops.shiftPlb d).matchNode = ops.matchNode := rfl

@[simp]
theorem shiftPlb_index_get (ops : LibfsOps ν σ) (d : Nat) :
    (ops.shiftPlb d).index_get = ops.index_get := rfl

@[simp]
theorem shiftPlb_size_get (ops : LibfsOps ν σ) (d : Nat) :
    (ops.shiftPlb d).size_get = ops.size_get := rfl

@[simp]
theorem shiftPlb_lnkcnt_get (ops : LibfsOps ν σ) (d : Nat) :
    (ops.shiftPlb d).lnkcnt_get = ops.lnkcnt_get := rfl

@[simp]
theorem cleanupRefs_shiftPlb (ops : LibfsOps ν σ) (d : Nat)
    (par cur tmp : Option (ν × Nat)) (m : Run ν σ) :
    cleanupRefs (ops.shiftPlb d) par cur tmp m = cleanupRefs ops par cur tmp m := rfl

@[simp]
theorem putRef_shiftPlb (ops : LibfsOps ν σ) (d : Nat) (r : Option (ν × Nat))
    (m : Run ν σ) :
    putRef (ops.shiftPlb d) r m = putRef ops r m := rfl

/-- The in-loop collection depends on the buffer only through the
positions from `next` on: shifting the buffer and the offset agree. -/
theorem collectComp_shift (g : Nat → Char) (nameMax d : Nat) :
    ∀ (r next : Nat) (acc : List Char),
      collectComp g nameMax r (next + d) acc
        = (match collectComp (fun j => g (j + d)) nameMax r next acc with
            | CollectRes.tooLong => CollectRes.tooLong
            | CollectRes.ok name stop rem => CollectRes.ok name (stop + d) rem) := by
  intro r
  induction r with
  | zero => intro next acc; rfl
  | succ r ih =>
    intro next acc
    rw [collectComp, collectComp]
    by_cases hs : g (next + d) = '/'
    · rw [if_pos hs, if_pos hs]
    · rw [if_neg hs, if_neg hs]
      by_cases hlen : acc.length + 1 = nameMax
      · rw [if_pos hlen, if_pos hlen]
      · rw [if_neg hlen, if_neg hlen]
        have he : next + d + 1 = next + 1 + d := by omega
        rw [he]
        exact ih (next + 1) (acc ++ [g (next + d)])

/-- Same for the post-loop collection. -/
theorem collectLast_shift (g : Nat → Char) (nameMax d : Nat) :
    ∀ (r next : Nat) (acc : List Char),
      collectLast g nameMax r (next + d) acc
        = collectLast (fun j => g (j + d)) nameMax r next acc := by
  intro r
  induction r with
  | zero => intro next acc; rfl
  | succ r ih =>
    intro next acc
    rw [collectLast, collectLast]
    by_cases hs : g (next + d) = '/'
    · rw [if_pos hs, if_pos hs]
    · rw [if_neg hs, if_neg hs]
      by_cases hlen : acc.length + 1 = nameMax
      · rw [if_pos hlen, if_pos hlen]
      · rw [if_neg hlen, if_neg hlen]
        have he : next + d + 1 = next + 1 + d := by omega
        rw [he]
        exact ih (next + 1) (acc ++ [g (next + d)])

theorem afterLoop_shift (ops : LibfsOps ν σ) (d nameMax fsh dev : Nat) (f : LFlags)
    (index next remaining : Nat) (par : Option (ν × Nat)) (cur : ν × Nat)
    (m : Run ν σ) :
    afterLoop (ops.shiftPlb d) nameMax fsh dev f index next remaining par cur m
      = afterLoop ops nameMax fsh dev f index (next + d) remaining par cur m := by
  unfold afterLoop
  rw [collectLast_shift ops.plb nameMax d remaining next []]
  rfl

theorem lookupLoop_shift (ops : LibfsOps ν σ) (d nameMax fsh dev : Nat) (f : LFlags)
    (index : Nat) :
    ∀ (fuel next remaining : Nat) (par : Option (ν × Nat)) (cur : ν × Nat)
      (m : Run ν σ),
      lookupLoop (ops.shiftPlb d) nameMax fsh dev f index fuel next remaining par cur m
        = lookupLoop ops nameMax fsh dev f index fuel (next + d) remaining par cur m := by
  intro fuel
  induction fuel with
  | zero => intro next remaining par cur m; rfl
  | succ fuel ih =>
    intro next remaining par cur m
    simp only [lookupLoop]
    simp only [shiftPlb_has_children, shiftPlb_plb, shiftPlb_matchNode,
      shiftPlb_is_directory, shiftPlb_index_get, shiftPlb_size_get, shiftPlb_lnkcnt_get,
      cleanupRefs_shiftPlb, linkChild_shiftPlb]
    by_cases hc : 0 < remaining ∧ ops.has_children m.st cur.1 = true
    · rw [if_pos hc, if_pos hc]
      rw [collectComp_shift ops.plb nameMax d remaining next []]
      cases hcc : collectComp (fun j => ops.plb (j + d)) nameMax remaining next [] with
      | tooLong => rfl
      | ok name stop rem =>
        dsimp only [putRef_shiftPlb]
        by_cases hname : name = []
        · rw [if_pos hname, if_pos hname]
        · rw [if_neg hname, if_neg hname]
          cases hm : (ops.matchNode m.st cur.1 name).1 with
          | none => rfl
          | some t =>
            dsimp only
            have he : stop + 1 + d = stop + d + 1 := by omega
            rw [ih, he]
    · rw [if_neg hc, if_neg hc]
      exact afterLoop_shift ops d nameMax fsh dev f index next remaining par cur m

/-- The same operation table reading the path buffer from absolute
offset `base` on, modulo the buffer capacity: the unwrapped view of a
wrapped request. -/
def LibfsOps.rebase (ops : LibfsOps ν σ) (plbSize base : Nat) : LibfsOps ν σ :=
  { ops with plb := fun j => ops.plb ((base + j) % plbSize) }

/-- C7: a request with `last < next` has its range extended by the
buffer capacity (`last += PLB_SIZE`); when the backend's
`plb_get_char` reduces offsets modulo the capacity (the periodicity
hypothesis), the whole run is identical to the run of the logically
equivalent non-wrapped request: same backend, the buffer re-read from
offset `next`, range `[0, last + plbSize - next]` — so wraparound is
transparent to the lookup. -/
theorem C7_wrap_transparent (ops : LibfsOps ν σ) (plbSize nameMax fsh next last dev : Nat)
    (f : LFlags) (index : Nat) (st : σ)
    (hper : ∀ i, ops.plb i = ops.plb (i % plbSize))
    (hwrap : last < next) (hnext : next < plbSize) :
    libfs_lookup ops plbSize nameMax fsh next last dev f index st
      = libfs_lookup (ops.rebase plbSize next) plbSize nameMax fsh 0
          (last + plbSize - next) dev f index st := by
  have hre : ops.rebase plbSize next = ops.shiftPlb next := by
    unfold LibfsOps.rebase LibfsOps.shiftPlb
    congr 1
    funext j
    rw [← hper (next + j), Nat.add_comm next j]
  rw [hre]
  unfold libfs_lookup
  rw [if_pos hwrap, if_neg (Nat.not_lt_zero (last + plbSize - next))]
  dsimp only [shiftPlb_plb, shiftPlb_has_children]
  simp only [Nat.zero_add]
  have hroot : (ops.shiftPlb next).root_get = ops.root_get := rfl
  rw [hroot]
  by_cases hs : ops.plb next = '/'
  · rw [if_pos hs, if_pos hs]
    dsimp only
    rw [lookupLoop_shift]
    have h1 : 1 + next = next + 1 := by omega
    have h2 : last + plbSize - next + 1 - 1 = last + plbSize + 1 - (next + 1) := by
      omega
    rw [h1, h2]
  · rw [if_neg hs, if_neg hs]
    dsimp only
    rw [lookupLoop_shift]
    have h2 : last + plbSize - next + 1 - 0 = last + plbSize + 1 - next := by omega
    rw [h2, Nat.zero_add]

/-- A concrete circular buffer of capacity 8 whose cells 6, 7, 0, 1
hold the path `"/a/b"` wrapping around the end of the buffer. -/
def wrapBuf : Nat → Char := fun i => strBuf "/bqqqq/a" (i % 8)

/-- Witness for C7: the wrapped request `(next, last) = (6, 1)` on the
8-byte circular buffer runs identically to the unwrapped request
`(0, 3)` on the rebased buffer, and resolves `"/a/b"` to node 3's
triplet. -/
theorem C7_wrap_transparent_witness :
    libfs_lookup (mkOps wrapBuf Errno.EOK (some 7)) 8 256 11 6 1 9 flagsNone 0 5
      = libfs_lookup ((mkOps wrapBuf Errno.EOK (some 7)).rebase 8 6) 8 256 11 0 3 9
          flagsNone 0 5 ∧
    (libfs_lookup (mkOps wrapBuf Errno.EOK (some 7)) 8 256 11 6 1 9 flagsNone 0 5).replies
      = [Reply.quintet Errno.EOK 11 9 43 53 5] := by
  constructor
  · exact C7_wrap_transparent (mkOps wrapBuf Errno.EOK (some 7)) 8 256 11 6 1 9
      flagsNone 0 5
      (fun i => by
        show strBuf "/bqqqq/a" (i % 8) = strBuf "/bqqqq/a" (i % 8 % 8)
        congr 1
        omega)
      (by decide) (by decide)
  · decide

/-! ### Reference counting: every navigation reference is released
exactly once (towards claim C2) -/

/-- Contribution of one optional reference to the put count of serial
`s`. -/
def optInd (r : Option (ν × Nat)) (s : Nat) : Nat :=
  match r with
  | some p => if p.2 = s then 1 else 0
  | none => 0

@[simp]
theorem optInd_none (s : Nat) : optInd (none : Option (ν × Nat)) s = 0 := rfl

@[simp]
theorem optInd_some (p : ν × Nat) (s : Nat) :
    optInd (some p) s = if p.2 = s then 1 else 0 := rfl

@[simp]
theorem putCount_putEv (s : Nat) (r : Option (ν × Nat)) :
    putCount s (putEv r) = optInd r s := by
  cases r with
  | none => rfl
  | some p =>
    by_cases h : p.2 = s <;> simp [putEv, h]

/-- A serial with a positive put count is mentioned in the trace. -/
theorem putCount_pos_mem (s : Nat) (tr : List (Ev ν)) (h : putCount s tr ≠ 0) :
    s ∈ usedSerials tr := by
  induction tr with
  | nil => simp [putCount] at h
  | cons e a ih =>
    rw [putCount_cons] at h
    cases e with
    | put s' n =>
      by_cases hs : s' = s
      · subst hs; simp
      · simp only [hs, if_false] at h
        simp only [usedSerials_cons]
        right
        exact ih (by omega)
    | acqNav s' n => simp only [usedSerials_cons]; right; exact ih (by simpa using h)
    | acqFn s' n => simp only [usedSerials_cons]; right; exact ih (by simpa using h)
    | destroyN s' n => simp only [usedSerials_cons]; right; exact ih (by simpa using h)
    | callMatch => exact ih (by simpa using h)
    | callCreate => exact ih (by simpa using h)
    | callNodeGet => exact ih (by simpa using h)
    | callLink => exact ih (by simpa using h)
    | callUnlink => exact ih (by simpa using h)
    | reply r => exact ih (by simpa using h)
    | assertFailed => exact ih (by simpa using h)
    | fuelOut => exact ih (by simpa using h)

/-- The post-`PARENT` hit handling releases exactly `par` and `cur`,
once each, and acquires nothing. -/
theorem handleHitTail_puts (ops : LibfsOps ν σ) (fsh dev : Nat) (f : LFlags)
    (par : Option (ν × Nat)) (cur : ν × Nat) (m : Run ν σ) :
    navSerials (handleHitTail ops fsh dev f par cur m).tr = navSerials m.tr ∧
    ∀ s, putCount s (handleHitTail ops fsh dev f par cur m).tr
      = putCount s m.tr + optInd par s + (if cur.2 = s then 1 else 0) := by
  unfold handleHitTail
  split_ifs <;>
    exact ⟨by simp, fun s => by simp [Nat.add_assoc]⟩

/-- The hit handling (including the `PARENT` substitution) releases
exactly `par` and `cur`, once each, and acquires nothing. -/
theorem handleHit_puts (ops : LibfsOps ν σ) (fsh dev : Nat) (f : LFlags)
    (par : Option (ν × Nat)) (cur : ν × Nat) (m : Run ν σ) :
    navSerials (handleHit ops fsh dev f par cur m).tr = navSerials m.tr ∧
    ∀ s, putCount s (handleHit ops fsh dev f par cur m).tr
      = putCount s m.tr + optInd par s + (if cur.2 = s then 1 else 0) := by
  unfold handleHit
  by_cases hp : f.parent = true
  · rw [if_pos hp]
    cases par with
    | none => exact ⟨by simp, fun s => by simp [Nat.add_assoc]⟩
    | some p =>
      obtain ⟨hnav, hcnt⟩ :=
        handleHitTail_puts ops fsh dev f none p (putRef ops (some cur) m)
      refine ⟨by rw [hnav]; simp, fun s => ?_⟩
      rw [hcnt s]
      simp [optInd]
      by_cases h1 : p.2 = s <;> by_cases h2 : cur.2 = s
      all_goals simp [h1, h2]
  · rw [if_neg hp]
    exact handleHitTail_puts ops fsh dev f par cur m

/-- The create-or-resolve-then-link block releases exactly `par` and
`cur` among the previously existing references; the only other release
it may perform is of the freshly acquired `fn` reference (serial
`m.ctr`), and it acquires no navigation reference. -/
theorem linkChild_puts (ops : LibfsOps ν σ) (fsh dev : Nat) (f : LFlags)
    (index : Nat) (par : Option (ν × Nat)) (cur : ν × Nat) (name : List Char)
    (m : Run ν σ) :
    navSerials (linkChild ops fsh dev f index par cur name m).tr = navSerials m.tr ∧
    ∀ s, s < m.ctr →
      putCount s (linkChild ops fsh dev f index par cur name m).tr
        = putCount s m.tr + optInd par s + (if cur.2 = s then 1 else 0) := by
  unfold linkChild
  cases hc : f.create with
  | true =>
    cases hcr : (ops.create m.st dev f).1 with
    | none =>
      refine ⟨?_, fun s _ => ?_⟩ <;> simp [hcr, Nat.add_assoc]
    | some n =>
      by_cases hrc : (ops.link (ops.create m.st dev f).2 cur.1 n name).1 = Errno.EOK
      · refine ⟨?_, fun s hs => ?_⟩
        · simp [hcr, hrc]
        · have hne : ¬m.ctr = s := by omega
          simp [hcr, hrc, hne, Nat.add_assoc]
      · refine ⟨?_, fun s hs => ?_⟩ <;> simp [hcr, hrc, Nat.add_assoc]
  | false =>
    cases hcr : (ops.node_get m.st dev index).1 with
    | none =>
      refine ⟨?_, fun s _ => ?_⟩ <;> simp [hcr, Nat.add_assoc]
    | some n =>
      by_cases hrc : (ops.link (ops.node_get m.st dev index).2 cur.1 n name).1 = Errno.EOK
      · refine ⟨?_, fun s hs => ?_⟩
        · simp [hcr, hrc]
        · have hne : ¬m.ctr = s := by omega
          simp [hcr, hrc, hne, Nat.add_assoc]
      · refine ⟨?_, fun s hs => ?_⟩ <;> simp [hcr, hrc, Nat.add_assoc]

/-- The post-loop handling releases exactly `par` and `cur` among the
previously existing references (unless it aborts on the length
assertion) and acquires no navigation reference. -/
theorem afterLoop_puts (ops : LibfsOps ν σ) (nameMax fsh dev : Nat) (f : LFlags)
    (index next remaining : Nat) (par : Option (ν × Nat)) (cur : ν × Nat) (m : Run ν σ)
    (hassert : Ev.assertFailed
      ∉ (afterLoop ops nameMax fsh dev f index next remaining par cur m).tr) :
    navSerials (afterLoop ops nameMax fsh dev f index next remaining par cur m).tr
      = navSerials m.tr ∧
    ∀ s, s < m.ctr →
      putCount s (afterLoop ops nameMax fsh dev f index next remaining par cur m).tr
        = putCount s m.tr + optInd par s + (if cur.2 = s then 1 else 0) := by
  unfold afterLoop at hassert ⊢
  by_cases h1 : 0 < remaining ∧ ¬ops.has_children m.st cur.1 = true
  · rw [if_pos h1] at hassert ⊢
    by_cases h2 : (f.create || f.link) = true
    · rw [if_pos h2] at hassert ⊢
      by_cases h3 : ¬ops.is_directory m.st cur.1 = true
      · rw [if_pos h3]
        exact ⟨by simp, fun s _ => by simp [Nat.add_assoc]⟩
      · rw [if_neg h3] at hassert ⊢
        cases hcl : collectLast ops.plb nameMax remaining next [] with
        | moreComponents =>
          refine ⟨?_, fun s _ => ?_⟩ <;> simp [hcl, Nat.add_assoc]
        | tooLong =>
          refine ⟨?_, fun s _ => ?_⟩ <;> simp [hcl, Nat.add_assoc]
        | ok name =>
          dsimp only
          rw [hcl] at hassert
          dsimp only at hassert
          by_cases hname : name = []
          · rw [if_pos hname] at hassert
            simp at hassert
          · rw [if_neg hname]
            exact linkChild_puts ops fsh dev f index par cur name m
    · rw [if_neg h2]
      exact ⟨by simp, fun s _ => by simp [Nat.add_assoc]⟩
  · rw [if_neg h1]
    obtain ⟨ha, hb⟩ := handleHit_puts ops fsh dev f par cur m
    exact ⟨ha, fun s _ => hb s⟩

@[simp]
theorem fuelOut_not_mem_putEv (r : Option (ν × Nat)) : Ev.fuelOut ∉ putEv r := by
  cases r <;> simp [putEv]

/-- The create-or-resolve-then-link block never emits the fuel
marker. -/
theorem linkChild_fuelOut (ops : LibfsOps ν σ) (fsh dev : Nat) (f : LFlags)
    (index : Nat) (par : Option (ν × Nat)) (cur : ν × Nat) (name : List Char)
    (m : Run ν σ) (h : Ev.fuelOut ∉ m.tr) :
    Ev.fuelOut ∉ (linkChild ops fsh dev f index par cur name m).tr := by
  unfold linkChild
  cases hc : f.create with
  | true =>
    cases hcr : (ops.create m.st dev f).1 with
    | none => simp [hcr, h]
    | some n =>
      by_cases hrc : (ops.link (ops.create m.st dev f).2 cur.1 n name).1 = Errno.EOK <;>
        simp [hcr, hrc, h]
  | false =>
    cases hcr : (ops.node_get m.st dev index).1 with
    | none => simp [hcr, h]
    | some n =>
      by_cases hrc : (ops.link (ops.node_get m.st dev index).2 cur.1 n name).1
          = Errno.EOK <;>
        simp [hcr, hrc, h]

/-- The post-`PARENT` hit handling never emits the fuel marker. -/
theorem handleHitTail_fuelOut (ops : LibfsOps ν σ) (fsh dev : Nat) (f : LFlags)
    (par : Option (ν × Nat)) (cur : ν × Nat) (m : Run ν σ)
    (h : Ev.fuelOut ∉ m.tr) :
    Ev.fuelOut ∉ (handleHitTail ops fsh dev f par cur m).tr := by
  unfold handleHitTail
  split_ifs <;> simp [h]

/-- The hit handling never emits the fuel marker. -/
theorem handleHit_fuelOut (ops : LibfsOps ν σ) (fsh dev : Nat) (f : LFlags)
    (par : Option (ν × Nat)) (cur : ν × Nat) (m : Run ν σ)
    (h : Ev.fuelOut ∉ m.tr) :
    Ev.fuelOut ∉ (handleHit ops fsh dev f par cur m).tr := by
  unfold handleHit
  by_cases hp : f.parent = true
  · rw [if_pos hp]
    cases par with
    | none => simp [h]
    | some p =>
      exact handleHitTail_fuelOut ops fsh dev f none p (putRef ops (some cur) m)
        (by simp [h])
  · rw [if_neg hp]
    exact handleHitTail_fuelOut ops fsh dev f par cur m h

/-- The post-loop handling never emits the fuel marker. -/
theorem afterLoop_fuelOut (ops : LibfsOps ν σ) (nameMax fsh dev : Nat) (f : LFlags)
    (index next remaining : Nat) (par : Option (ν × Nat)) (cur : ν × Nat)
    (m : Run ν σ) (h : Ev.fuelOut ∉ m.tr) :
    Ev.fuelOut ∉ (afterLoop ops nameMax fsh dev f index next remaining par cur m).tr := by
  unfold afterLoop
  by_cases h1 : 0 < remaining ∧ ¬ops.has_children m.st cur.1 = true
  · rw [if_pos h1]
    by_cases h2 : (f.create || f.link) = true
    · rw [if_pos h2]
      by_cases h3 : ¬ops.is_directory m.st cur.1 = true
      · rw [if_pos h3]
        simp [h]
      · rw [if_neg h3]
        cases hcl : collectLast ops.plb nameMax remaining next [] with
        | moreComponents => simp [h]
        | tooLong => simp [h]
        | ok name =>
          dsimp only
          by_cases hname : name = []
          · rw [if_pos hname]
            simp [h]
          · rw [if_neg hname]
            exact linkChild_fuelOut ops fsh dev f index par cur name m h
    · rw [if_neg h2]
      simp [h]
  · rw [if_neg h1]
    exact handleHit_fuelOut ops fsh dev f par cur m h

/-- The in-loop collection never returns a remaining count larger than
its input. -/
theorem collectComp_rem_le (g : Nat → Char) (nameMax : Nat) :
    ∀ (r next : Nat) (acc name : List Char) (stop rem : Nat),
      collectComp g nameMax r next acc = CollectRes.ok name stop rem → rem ≤ r := by
  intro r
  induction r with
  | zero =>
    intro next acc name stop rem h
    rw [collectComp] at h
    cases h
    exact Nat.le_refl 0
  | succ r ih =>
    intro next acc name stop rem h
    rw [collectComp] at h
    by_cases hs : g next = '/'
    · rw [if_pos hs] at h
      cases h
      exact Nat.le_refl _
    · rw [if_neg hs] at h
      by_cases hlen : acc.length + 1 = nameMax
      · rw [if_pos hlen] at h
        cases h
      · rw [if_neg hlen] at h
        exact Nat.le_succ_of_le (ih (next + 1) (acc ++ [g next]) name stop rem h)

/-- With fuel exceeding the remaining character count, the walk loop
never runs out of fuel. -/
theorem lookupLoop_no_fuelOut (ops : LibfsOps ν σ) (nameMax fsh dev : Nat) (f : LFlags)
    (index : Nat) :
    ∀ (fuel next remaining : Nat) (par : Option (ν × Nat)) (cur : ν × Nat)
      (m : Run ν σ), remaining < fuel → Ev.fuelOut ∉ m.tr →
      Ev.fuelOut ∉ (lookupLoop ops nameMax fsh dev f index fuel next remaining
        par cur m).tr := by
  intro fuel
  induction fuel with
  | zero => intro next remaining par cur m hlt; omega
  | succ fuel ih =>
    intro next remaining par cur m hlt hm
    rw [lookupLoop]
    by_cases hc : 0 < remaining ∧ ops.has_children m.st cur.1 = true
    · rw [if_pos hc]
      cases hcc : collectComp ops.plb nameMax remaining next [] with
      | tooLong => simp [hm]
      | ok name stop rem =>
        have hrem : rem ≤ remaining :=
          collectComp_rem_le ops.plb nameMax remaining next [] name stop rem hcc
        dsimp only
        by_cases hname : name = []
        · rw [if_pos hname]
          simp [hm]
        · rw [if_neg hname]
          cases hmm : (ops.matchNode m.st cur.1 name).1 with
          | none =>
            dsimp only
            by_cases hr2 : 0 < rem - 1
            · rw [if_pos hr2]
              simp [hm]
            · rw [if_neg hr2]
              by_cases h4 : (f.create || f.link) = true
              · rw [if_pos h4]
                by_cases h5 : ¬ops.is_directory
                    (ops.matchNode m.st cur.1 name).2 cur.1 = true
                · rw [if_pos h5]
                  simp [hm]
                · rw [if_neg h5]
                  exact linkChild_fuelOut ops fsh dev f index par cur name
                    { st := (ops.matchNode m.st cur.1 name).2, ctr := m.ctr,
                      tr := m.tr ++ [Ev.callMatch] } (by simp [hm])
              · rw [if_neg h4]
                by_cases h6 : f.parent = true
                · rw [if_pos h6]
                  simp [hm]
                · rw [if_neg h6]
                  simp [hm]
          | some t =>
            dsimp only
            have h01 := hc.1
            apply ih
            · omega
            · simp [hm]
    · rw [if_neg hc]
      exact afterLoop_fuelOut ops nameMax fsh dev f index next remaining par cur m hm

/-- Main counting invariant of the walk loop: when the serials already
mentioned by the trace lie below the counter, and the loop neither
aborts on the length assertion nor runs out of fuel, it releases
exactly once the references held in `par` and `cur`, and it also
releases exactly once every navigation reference it acquires during
the walk. -/
theorem lookupLoop_puts (ops : LibfsOps ν σ) (nameMax fsh dev : Nat) (f : LFlags)
    (index : Nat) :
    ∀ (fuel next remaining : Nat) (par : Option (ν × Nat)) (cur : ν × Nat)
      (m : Run ν σ),
      (∀ s ∈ usedSerials m.tr, s < m.ctr) →
      cur.2 < m.ctr →
      (∀ p, par = some p → p.2 < m.ctr ∧ p.2 ≠ cur.2) →
      Ev.assertFailed
        ∉ (lookupLoop ops nameMax fsh dev f index fuel next remaining par cur m).tr →
      Ev.fuelOut
        ∉ (lookupLoop ops nameMax fsh dev f index fuel next remaining par cur m).tr →
      (∀ s, s < m.ctr →
        putCount s (lookupLoop ops nameMax fsh dev f index fuel next remaining par cur m).tr
          = putCount s m.tr + optInd par s + (if cur.2 = s then 1 else 0)) ∧
      (∀ s, m.ctr ≤ s →
        s ∈ navSerials
          (lookupLoop ops nameMax fsh dev f index fuel next remaining par cur m).tr →
        putCount s
          (lookupLoop ops nameMax fsh dev f index fuel next remaining par cur m).tr
          = 1) := by
  intro fuel
  induction fuel with
  | zero =>
    intro next remaining par cur m hfresh hcur hpar hassert hfuel
    rw [lookupLoop] at hfuel
    simp at hfuel
  | succ fuel ih =>
    intro next remaining par cur m hfresh hcur hpar hassert hfuel
    rw [lookupLoop] at hassert hfuel ⊢
    by_cases hc : 0 < remaining ∧ ops.has_children m.st cur.1 = true
    · rw [if_pos hc] at hassert hfuel ⊢
      cases hcc : collectComp ops.plb nameMax remaining next [] with
      | tooLong =>
        rw [hcc] at hassert hfuel
        dsimp only at hassert hfuel ⊢
        refine ⟨fun s hs => by simp [Nat.add_assoc], fun s hge hmem => ?_⟩
        simp at hmem
        exact absurd (hfresh s (navSerials_subset_used m.tr s hmem)) (by omega)
      | ok name stop rem =>
        rw [hcc] at hassert hfuel
        dsimp only at hassert hfuel ⊢
        by_cases hname : name = []
        · rw [if_pos hname] at hassert
          simp at hassert
        · rw [if_neg hname] at hassert hfuel ⊢
          cases hmm : (ops.matchNode m.st cur.1 name).1 with
          | none =>
            rw [hmm] at hassert hfuel
            dsimp only at hassert hfuel ⊢
            by_cases hr2 : 0 < rem - 1
            · rw [if_pos hr2]
              refine ⟨fun s hs => by simp [Nat.add_assoc], fun s hge hmem => ?_⟩
              simp at hmem
              exact absurd (hfresh s (navSerials_subset_used m.tr s hmem)) (by omega)
            · rw [if_neg hr2] at hassert hfuel ⊢
              by_cases h4 : (f.create || f.link) = true
              · rw [if_pos h4] at hassert hfuel ⊢
                by_cases h5 : ¬ops.is_directory
                    (ops.matchNode m.st cur.1 name).2 cur.1 = true
                · rw [if_pos h5]
                  refine ⟨fun s hs => by simp [Nat.add_assoc], fun s hge hmem => ?_⟩
                  simp at hmem
                  exact absurd (hfresh s (navSerials_subset_used m.tr s hmem)) (by omega)
                · rw [if_neg h5]
                  obtain ⟨hnav, hcnt⟩ := linkChild_puts ops fsh dev f index par cur name
                    { st := (ops.matchNode m.st cur.1 name).2, ctr := m.ctr,
                      tr := m.tr ++ [Ev.callMatch] }
                  refine ⟨fun s hs => ?_, fun s hge hmem => ?_⟩
                  · rw [hcnt s hs]
                    simp [Nat.add_assoc]
                  · rw [hnav] at hmem
                    simp at hmem
                    exact absurd (hfresh s (navSerials_subset_used m.tr s hmem))
                      (by omega)
              · rw [if_neg h4] at hassert hfuel ⊢
                by_cases h6 : f.parent = true
                · rw [if_pos h6]
                  refine ⟨fun s hs => by simp [Nat.add_assoc], fun s hge hmem => ?_⟩
                  simp at hmem
                  exact absurd (hfresh s (navSerials_subset_used m.tr s hmem)) (by omega)
                · rw [if_neg h6]
                  refine ⟨fun s hs => by simp [Nat.add_assoc], fun s hge hmem => ?_⟩
                  simp at hmem
                  exact absurd (hfresh s (navSerials_subset_used m.tr s hmem)) (by omega)
          | some t =>
            rw [hmm] at hassert hfuel
            dsimp only at hassert hfuel ⊢
            have hctr3 : (putRef ops par
                (Run.mk (ops.matchNode m.st cur.1 name).2 (m.ctr + 1)
                  (m.tr ++ [Ev.callMatch] ++ [Ev.acqNav m.ctr t]))).ctr
                = m.ctr + 1 := by
              cases par <;> rfl
            obtain ⟨ihA, ihB⟩ := ih (stop + 1) (rem - 1) (some cur) (t, m.ctr)
              (putRef ops par
                { st := (ops.matchNode m.st cur.1 name).2, ctr := m.ctr + 1,
                  tr := m.tr ++ [Ev.callMatch] ++ [Ev.acqNav m.ctr t] })
              (by
                intro s hs
                rw [hctr3]
                cases par with
                | none =>
                  simp at hs
                  rcases hs with hs | hs
                  · exact Nat.lt_succ_of_lt (hfresh s hs)
                  · omega
                | some p =>
                  have hp2 := (hpar p rfl).1
                  simp [putEv] at hs
                  rcases hs with hs | hs | hs
                  · exact Nat.lt_succ_of_lt (hfresh s hs)
                  · omega
                  · omega)
              (by rw [hctr3]; exact Nat.lt_succ_self m.ctr)
              (by
                intro p hp
                cases hp
                rw [hctr3]
                exact ⟨Nat.lt_succ_of_lt hcur, by omega⟩)
              hassert hfuel
            rw [hctr3] at ihA ihB
            refine ⟨fun s hs => ?_, fun s hge hmem => ?_⟩
            · rw [ihA s (by omega)]
              rw [if_neg (show ¬m.ctr = s by omega)]
              simp [Nat.add_assoc]
            · by_cases hcase : s = m.ctr
              · rw [ihA s (by omega)]
                have hz : putCount s m.tr = 0 := by
                  by_contra hnz
                  exact absurd (hfresh s (putCount_pos_mem s m.tr hnz)) (by omega)
                have hoptp : optInd par s = 0 := by
                  cases par with
                  | none => rfl
                  | some p =>
                    simp [optInd]
                    exact fun h => absurd h (by have := (hpar p rfl).1; omega)
                have hcur_ne : ¬cur.2 = s := by omega
                have hm_eq : m.ctr = s := by omega
                simp [hz, hoptp, hcur_ne, hm_eq, Nat.add_assoc]
              · exact ihB s (by omega) hmem
    · rw [if_neg hc] at hassert hfuel ⊢
      obtain ⟨hnav, hcnt⟩ := afterLoop_puts ops nameMax fsh dev f index next remaining
        par cur m hassert
      refine ⟨hcnt, fun s hge hmem => ?_⟩
      rw [hnav] at hmem
      exact absurd (hfresh s (navSerials_subset_used m.tr s hmem)) (by omega)

/-- C2: on every completed run of `libfs_lookup` (one that does not
abort on the component-length assertion), every node reference the
engine acquired into the `par` / `cur` / transient-match lineage — the
root reference and every reference returned by `match` — is released
by `node_put` exactly once before the function returns; and releasing
an absent reference is a no-op. -/
theorem C2_refs_released_once (ops : LibfsOps ν σ) (plbSize nameMax fsh : Nat)
    (next last dev : Nat) (f : LFlags) (index : Nat) (st : σ)
    (hassert : Ev.assertFailed
      ∉ (libfs_lookup ops plbSize nameMax fsh next last dev f index st).tr) :
    (∀ s ∈ navSerials (libfs_lookup ops plbSize nameMax fsh next last dev f index st).tr,
      putCount s (libfs_lookup ops plbSize nameMax fsh next last dev f index st).tr
        = 1) ∧
    (∀ (m : Run ν σ), putRef ops none m = m) := by
  refine ⟨?_, fun m => rfl⟩
  unfold libfs_lookup at hassert ⊢
  dsimp only at hassert ⊢
  by_cases hsl : ops.plb next = '/'
  · rw [if_pos hsl] at hassert ⊢
    dsimp only at hassert ⊢
    have hfuel := lookupLoop_no_fuelOut ops nameMax fsh dev f index
      ((if last < next then last + plbSize else last) + 1 - (next + 1) + 1) (next + 1)
      ((if last < next then last + plbSize else last) + 1 - (next + 1)) none
      ((ops.root_get st dev).1, 0)
      ⟨(ops.root_get st dev).2, 1, [Ev.acqNav 0 (ops.root_get st dev).1]⟩
      (by omega) (by simp)
    obtain ⟨A, B⟩ := lookupLoop_puts ops nameMax fsh dev f index
      ((if last < next then last + plbSize else last) + 1 - (next + 1) + 1) (next + 1)
      ((if last < next then last + plbSize else last) + 1 - (next + 1)) none
      ((ops.root_get st dev).1, 0)
      ⟨(ops.root_get st dev).2, 1, [Ev.acqNav 0 (ops.root_get st dev).1]⟩
      (by simp) Nat.zero_lt_one (by intro p hp; cases hp) hassert hfuel
    intro s hsm
    by_cases h0 : s = 0
    · subst h0
      rw [A 0 Nat.zero_lt_one]
      simp
    · exact B s (show (1 : Nat) ≤ s by omega) hsm
  · rw [if_neg hsl] at hassert ⊢
    dsimp only at hassert ⊢
    have hfuel := lookupLoop_no_fuelOut ops nameMax fsh dev f index
      ((if last < next then last + plbSize else last) + 1 - next + 1) next
      ((if last < next then last + plbSize else last) + 1 - next) none
      ((ops.root_get st dev).1, 0)
      ⟨(ops.root_get st dev).2, 1, [Ev.acqNav 0 (ops.root_get st dev).1]⟩
      (by omega) (by simp)
    obtain ⟨A, B⟩ := lookupLoop_puts ops nameMax fsh dev f index
      ((if last < next then last + plbSize else last) + 1 - next + 1) next
      ((if last < next then last + plbSize else last) + 1 - next) none
      ((ops.root_get st dev).1, 0)
      ⟨(ops.root_get st dev).2, 1, [Ev.acqNav 0 (ops.root_get st dev).1]⟩
      (by simp) Nat.zero_lt_one (by intro p hp; cases hp) hassert hfuel
    intro s hsm
    by_cases h0 : s = 0
    · subst h0
      rw [A 0 Nat.zero_lt_one]
      simp
    · exact B s (show (1 : Nat) ≤ s by omega) hsm

/-- Witness for C2: a complete resolution of `"/a/b"` on the concrete
backend acquires three navigation references (root, `a`, `b`) and the
trace releases each exactly once. -/
theorem C2_refs_released_once_witness :
    Ev.assertFailed
      ∉ (libfs_lookup (mkOps (strBuf "/a/b") Errno.EOK (some 7)) 4096 256 11 0 3 9
          flagsNone 0 5).tr ∧
    ∀ s ∈ navSerials (libfs_lookup (mkOps (strBuf "/a/b") Errno.EOK (some 7)) 4096 256
        11 0 3 9 flagsNone 0 5).tr,
      putCount s (libfs_lookup (mkOps (strBuf "/a/b") Errno.EOK (some 7)) 4096 256
        11 0 3 9 flagsNone 0 5).tr = 1 :=
  ⟨by decide,
    (C2_refs_released_once (mkOps (strBuf "/a/b") Errno.EOK (some 7)) 4096 256 11 0 3 9
      flagsNone 0 5 (by decide)).1⟩

end LibfsSpec
